import Mathlib

/-!
Verification of the document Q&A pipeline (PDF chunking, lexical retrieval,
A4F completion client with key rotation).  The definitions below are a shallow
embedding of the Python sources:

* `src/ai_generator.py` — `AIAnswerGenerator`, `get_next_api_key`, `generate_answer`
* `src/api/document_processor_simple.py` — `clean_text`, `create_chunks`,
  `simple_text_search`, `process_document_and_answer`

Python strings are modelled as `List Char`, Python ints as `Int`/`Nat`,
floats as `ℚ` (all float values that occur are exactly representable small
rationals), and network / filesystem effects are modelled by passing the
outcome of each effectful step as an explicit function argument.
-/

namespace Bajaj

/-! ## Python string primitives (ASCII model) -/

/-- Python's `\s` / `str.strip` whitespace class, restricted to ASCII. -/
def isPySpace (c : Char) : Bool :=
  c = ' ' || c = '\t' || c = '\n' || c = '\r' || c = Char.ofNat 11 || c = Char.ofNat 12

/-- Python's `\w` word-character class, restricted to ASCII. -/
def isWordChar (c : Char) : Bool :=
  ('a' ≤ c && c ≤ 'z') || ('A' ≤ c && c ≤ 'Z') || ('0' ≤ c && c ≤ '9') || c = '_'

/-- Clamp an index the way Python slicing / `str.rfind` bounds do:
negative indices count from the end (floored at 0), positive ones are
capped at the length. -/
def pyClamp (i : Int) (n : Nat) : Nat :=
  if i < 0 then (i + n).toNat else min i.toNat n

/-- Python slice `l[a:b]`. -/
def pySlice (l : List Char) (a b : Int) : List Char :=
  (l.take (pyClamp b l.length)).drop (pyClamp a l.length)

/-- Scan indices `hi-1, hi-2, …, lo` and return the largest one holding a
space, or `-1`.  Helper for `pyRfindSpace`. -/
def rfindAux (l : List Char) (lo : Nat) : Nat → Int
  | 0 => -1
  | k + 1 => if lo ≤ k ∧ l.getD k 'x' = ' ' then (k : Int) else rfindAux l lo k

/-- Python `text.rfind(' ', a, b)`: index of the last space in the clamped
window `[a, b)`, or `-1` when there is none. -/
def pyRfindSpace (l : List Char) (a b : Int) : Int :=
  rfindAux l (pyClamp a l.length) (pyClamp b l.length)

/-- Python `str.strip()` (whitespace trim at both ends). -/
def pyStrip (l : List Char) : List Char :=
  ((l.dropWhile (fun c => isPySpace c)).reverse.dropWhile (fun c => isPySpace c)).reverse

/-- Python `str.lower()` (ASCII model). -/
def pyLower (l : List Char) : List Char := l.map Char.toLower

/-- Word accumulator for `pySplitWs`: `cur` holds the characters of the word
in progress, reversed. -/
def pySplitWsAux : List Char → List Char → List (List Char)
  | cur, [] => if cur = [] then [] else [cur.reverse]
  | cur, c :: cs =>
    if isPySpace c then
      if cur = [] then pySplitWsAux [] cs else cur.reverse :: pySplitWsAux [] cs
    else pySplitWsAux (c :: cur) cs

/-- Python `str.split()` with no argument: split on whitespace runs,
discarding empty pieces. -/
def pySplitWs (l : List Char) : List (List Char) := pySplitWsAux [] l

/-- Does `needle` occur at the head of `hay`? Helper for `containsSub`. -/
def startsWith : List Char → List Char → Bool
  | [], _ => true
  | _ :: _, [] => false
  | a :: as, b :: bs => a = b && startsWith as bs

/-- Python's substring test `needle in hay`. -/
def containsSub (needle : List Char) : List Char → Bool
  | [] => startsWith needle []
  | c :: cs => startsWith needle (c :: cs) || containsSub needle cs

/-! ## Completion client (`src/ai_generator.py`)

`generate_answer` loops `for attempt in range(self.max_retries)`, drawing one
credential per attempt via `get_next_api_key` and performing one HTTP POST.
The outcome of each attempt (status code, parse failure / network exception,
or a successful 200 with a parsed body) is modelled by `Outcome`, supplied as
a function from the attempt number. -/

/-- Outcome of one HTTP attempt inside `generate_answer`:
`ok a` is a 200 response whose body parsed to answer `a`; `http s` is a
response with non-200 status code `s`; `exc` is a raised exception
(network error from `requests.post`, or a body-parse failure). -/
inductive Outcome where
  | ok (ans : String)
  | http (status : Nat)
  | exc
deriving DecidableEq

/-- Observable trace of one `generate_answer` call: the returned value
(`none` after exhaustion), the list of `time.sleep` durations in order,
the credential indices consumed in order, and the final rotation cursor. -/
structure RunLog where
  result : Option String
  sleeps : List Nat
  keys : List Nat
  finalIdx : Nat
deriving DecidableEq

/-- Status codes that trigger exponential backoff in the source:
`response.status_code in [429, 500, 502, 503]`. -/
def backoffStatuses : List Nat := [429, 500, 502, 503]

/-- The retry loop of `generate_answer`, with `remaining` attempts left,
`attempt` the current 0-based attempt number and `idx` the rotation cursor
(`self.current_key_index`); `N` is `len(self.api_keys)`. -/
def genGo (N : Nat) (resp : Nat → Outcome) : Nat → Nat → Nat → RunLog
  | 0, _, idx => ⟨none, [], [], idx⟩
  | remaining + 1, attempt, idx =>
    let idx' := (idx + 1) % N
    match resp attempt with
    | .ok a => ⟨some a, [], [idx], idx'⟩
    | .http s =>
      let rest := genGo N resp remaining (attempt + 1) idx'
      if s ∈ backoffStatuses then
        ⟨rest.result, 2 ^ attempt :: rest.sleeps, idx :: rest.keys, rest.finalIdx⟩
      else
        ⟨rest.result, rest.sleeps, idx :: rest.keys, rest.finalIdx⟩
    | .exc =>
      let rest := genGo N resp remaining (attempt + 1) idx'
      ⟨rest.result, 1 :: rest.sleeps, idx :: rest.keys, rest.finalIdx⟩

/-- `AIAnswerGenerator.generate_answer`, starting at attempt 0 from rotation
cursor `idx` with `maxR = self.max_retries` attempts available. -/
def generate_answer (N : Nat) (resp : Nat → Outcome) (maxR : Nat) (idx : Nat) : RunLog :=
  genGo N resp maxR 0 idx

/-- The credential-pool state of an `AIAnswerGenerator`. -/
structure AIAnswerGenerator where
  api_keys : List String
  current_key_index : Nat
deriving DecidableEq

/-- `AIAnswerGenerator.__init__`: raises `ValueError` (modelled as `none`)
when the pool is empty, otherwise starts the cursor at 0. -/
def AIAnswerGenerator.init (keys : List String) : Option AIAnswerGenerator :=
  if keys = [] then none else some ⟨keys, 0⟩

/-- `AIAnswerGenerator.get_next_api_key`: return the key at the cursor and
advance the cursor by one modulo the pool size. -/
def get_next_api_key (g : AIAnswerGenerator) : String × AIAnswerGenerator :=
  (g.api_keys.getD g.current_key_index "",
   ⟨g.api_keys, (g.current_key_index + 1) % g.api_keys.length⟩)

/-- A sequence of `count` consecutive `generate_answer` calls, each of which
succeeds on its first attempt (status 200 with answer `ans`), threading the
shared rotation cursor; returns the credential indices consumed in order and
the final cursor.  `max_retries` is the source's hard-coded 3. -/
def consecutiveCalls (N : Nat) (ans : String) : Nat → Nat → List Nat × Nat
  | idx, 0 => ([], idx)
  | idx, count + 1 =>
    let log := generate_answer N (fun _ => Outcome.ok ans) 3 idx
    let rest := consecutiveCalls N ans log.finalIdx count
    (log.keys ++ rest.1, rest.2)

/-! ## Chunker (`SimpleDocumentProcessor.create_chunks`)

The Python loop keeps a running `start` offset (an unbounded int: the code
can drive it negative), computes a window end with optional word-boundary
snapping via `rfind`, emits the stripped slice when non-empty, and advances
`start = end - overlap`.  The loop has no forward-progress guard, so we model
it with explicit fuel: `none` means the fuel ran out before the loop exited. -/

/-- A chunk record as built by `create_chunks`
(`{'id', 'text', 'start_pos', 'end_pos', 'length'}`). -/
structure Chunk where
  id : Nat
  text : List Char
  start_pos : Int
  end_pos : Int
  length : Nat
deriving DecidableEq

/-- The window-end computation of one iteration: `end = start + chunk_size`,
then moved back to the last space strictly after `start` (the
`last_space > start` check) when the candidate end lies before the end of
the text. -/
def compEnd (text : List Char) (cs : Int) (s : Int) : Int :=
  if s + cs < (text.length : Int) then
    if s < pyRfindSpace text s (s + cs) then pyRfindSpace text s (s + cs) else s + cs
  else s + cs

/-- `start = end - self.chunk_overlap`, the next start offset. -/
def nextStart (text : List Char) (cs ov : Int) (s : Int) : Int :=
  compEnd text cs s - ov

/-- `chunk_text = text[start:end].strip()` for the current iteration. -/
def chunkText (text : List Char) (cs : Int) (s : Int) : List Char :=
  pyStrip (pySlice text s (compEnd text cs s))

/-- Append the current iteration's chunk record when its stripped text is
non-empty (`if chunk_text:`). -/
def pushChunk (text : List Char) (cs : Int) (s : Int) (cid : Nat)
    (acc : List Chunk) : List Chunk :=
  if chunkText text cs s = [] then acc
  else acc ++ [⟨cid, chunkText text cs s, s, compEnd text cs s, (chunkText text cs s).length⟩]

/-- `chunk_id` advances only when a chunk was emitted. -/
def nextCid (text : List Char) (cs : Int) (s : Int) (cid : Nat) : Nat :=
  if chunkText text cs s = [] then cid else cid + 1

/-- The `while start < len(text)` loop of `create_chunks` with fuel: `none`
means the fuel was exhausted before the loop exited. -/
def createChunksGo (text : List Char) (cs ov : Int) :
    Nat → Int → Nat → List Chunk → Option (List Chunk)
  | 0, _, _, _ => none
  | fuel + 1, s, cid, acc =>
    if s < (text.length : Int) then
      if (text.length : Int) ≤ nextStart text cs ov s then
        some (pushChunk text cs s cid acc)
      else
        createChunksGo text cs ov fuel (nextStart text cs ov s)
          (nextCid text cs s cid) (pushChunk text cs s cid acc)
    else some acc

/-- `SimpleDocumentProcessor.create_chunks(text)` with `chunk_size = cs` and
`chunk_overlap = ov`, starting at `start = 0`, `chunk_id = 0`. -/
def create_chunks (fuel : Nat) (text : List Char) (cs ov : Int) : Option (List Chunk) :=
  createChunksGo text cs ov fuel 0 0 []

/-! ## Text cleaner (`SimpleDocumentProcessor.clean_text`) -/

/-- State machine for `re.sub(r'\s+', ' ', ·)`: the flag records whether we
are inside a whitespace run whose single replacement space was already
emitted. -/
def collapseWsAux : Bool → List Char → List Char
  | _, [] => []
  | inRun, c :: cs =>
    if isPySpace c then
      if inRun then collapseWsAux true cs else ' ' :: collapseWsAux true cs
    else c :: collapseWsAux false cs

/-- `re.sub(r'\s+', ' ', text)`: replace every maximal whitespace run by one
space. -/
def collapseWsRuns (l : List Char) : List Char := collapseWsAux false l

/-- State machine for `re.sub(r'\n+', '\n', ·)`, as `collapseWsAux`. -/
def collapseNlAux : Bool → List Char → List Char
  | _, [] => []
  | inRun, c :: cs =>
    if c = '\n' then
      if inRun then collapseNlAux true cs else '\n' :: collapseNlAux true cs
    else c :: collapseNlAux false cs

/-- `re.sub(r'\n+', '\n', text)`: replace every maximal newline run by one
newline. -/
def collapseNlRuns (l : List Char) : List Char := collapseNlAux false l

/-- The character class kept by `re.sub(r'[^\w\s\.\,\;\:\!\?\-\(\)]', '', ·)`. -/
def keepChar (c : Char) : Bool :=
  isWordChar c || isPySpace c ||
    c = '.' || c = ',' || c = ';' || c = ':' || c = '!' || c = '?' ||
    c = '-' || c = '(' || c = ')'

/-- `SimpleDocumentProcessor.clean_text`: collapse whitespace, collapse
newlines, drop unsafe characters, strip. -/
def clean_text (l : List Char) : List Char :=
  pyStrip ((collapseNlRuns (collapseWsRuns l)).filter keepChar)

/-! ## Lexical retriever (`SimpleDocumentQAProcessor.simple_text_search`)

Chunks enter the search as their `'text'` fields, in document order; the
`Scored.idx` field records the position of the chunk in that list (its
position in `self.document_chunks`), which the Python code keeps implicitly
through list order and which the stability statements below refer to. -/

/-- One entry of `scored_chunks`, annotated with the original list position. -/
structure Scored where
  idx : Nat
  score : ℚ
  text : List Char
deriving DecidableEq

/-- `set(s.lower().split())` as a deduplicated word list. -/
def wordSet (l : List Char) : List (List Char) :=
  (pySplitWs (pyLower l)).dedup

/-- The score of one chunk: word-overlap ratio plus a 0.5 substring bonus. -/
def scoreChunk (query chunkText : List Char) : ℚ :=
  let qws := wordSet query
  let ctLower := pyLower chunkText
  let cws := (pySplitWs ctLower).dedup
  let base : ℚ := if qws = [] then 0 else ((qws.filter (fun w => w ∈ cws)).length : ℚ) / (qws.length : ℚ)
  base + (if containsSub (pyLower query) ctLower then (1 : ℚ) / 2 else 0)

/-- The scoring loop: walk the chunks in order (position `i` onward) and keep
those with positive score. -/
def scoreAll (query : List Char) : Nat → List (List Char) → List Scored
  | _, [] => []
  | i, t :: ts =>
    let sc := scoreChunk query t
    if 0 < sc then ⟨i, sc, t⟩ :: scoreAll query (i + 1) ts
    else scoreAll query (i + 1) ts

/-- Stable insertion for descending-by-score order: a new element coming
earlier in the original list passes over strictly greater scores and lands
before equal ones, exactly the reordering of Python's stable
`sort(key=score, reverse=True)`. -/
def insertScored (x : Scored) : List Scored → List Scored
  | [] => [x]
  | y :: ys => if y.score ≤ x.score then x :: y :: ys else y :: insertScored x ys

/-- Stable descending sort by score (the unique reordering produced by
Python's stable `list.sort(key=..., reverse=True)`). -/
def sortScored : List Scored → List Scored
  | [] => []
  | x :: xs => insertScored x (sortScored xs)

/-- `SimpleDocumentQAProcessor.simple_text_search(query, top_k)` over the
chunk texts `chunks` (the `'text'` fields of `self.document_chunks`). -/
def simple_text_search (query : List Char) (chunks : List (List Char)) (top_k : Nat) :
    List Scored :=
  if chunks = [] then []
  else ((sortScored (scoreAll query 0 chunks)).take top_k)

/-! ## Batch orchestrator (`SimpleDocumentQAProcessor.process_document_and_answer`)

`process_document` and `answer_question` never raise (each wraps its body in
a catch-all `try/except` returning a result dict), so they are passed in as
result-valued functions.  The only statements that can raise inside the outer
`try` are the argument-resolution block: reading `pdf_path` (modelled by
`fileRead` returning `none` on failure) and the explicit
`ValueError("Either pdf_path or pdf_content must be provided")`. -/

/-- The fields of the `process_document` result dict that the batch pipeline
reads. -/
structure DocResult where
  success : Bool
  message : String
deriving DecidableEq

/-- The fields of the `answer_question` result dict that the batch pipeline
reads (`error` is only present on some failure paths). -/
structure AnswerResult where
  success : Bool
  answer : String
  error : Option String
deriving DecidableEq

/-- `process_document_and_answer(pdf_path, pdf_content, questions)`.
`fileRead` models `open(pdf_path,'rb').read()` (`none` = raised exception);
`procDoc` models `await self.process_document(...)`; `answerQ` models
`await self.answer_question(...)`.  Python truthiness: `None` and the empty
string / empty bytes are falsy. -/
def process_document_and_answer (pdf_path : Option String)
    (pdf_content : Option (List Nat)) (fileRead : String → Option (List Nat))
    (procDoc : List Nat → DocResult) (answerQ : String → AnswerResult)
    (questions0 : Option (List String)) : List String :=
  let questions := questions0.getD []
  let pathTruthy : Bool := match pdf_path with | some p => decide (p ≠ "") | none => false
  let contentTruthy : Bool := match pdf_content with | some b => decide (b ≠ []) | none => false
  let resolved : Except String (List Nat) :=
    if pathTruthy && !contentTruthy then
      match fileRead (pdf_path.getD "") with
      | some b => .ok b
      | none => .error "file read failed"
    else if !contentTruthy then
      .error "Either pdf_path or pdf_content must be provided"
    else .ok (pdf_content.getD [])
  match resolved with
  | .error e =>
    let m := "Processing failed: " ++ e
    if questions = [] then [m] else questions.map (fun _ => m)
  | .ok content =>
    let doc := procDoc content
    if doc.success then
      questions.map (fun q =>
        let r := answerQ q
        if r.success then r.answer
        else "Error: " ++ r.error.getD "Failed to generate answer")
    else
      questions.map (fun _ => "Error processing document: " ++ doc.message)

/-! ## Lemmas about the completion client -/

lemma genGo_finalIdx_lt (N : Nat) (resp : Nat → Outcome) (hN : 0 < N) :
    ∀ remaining attempt idx, idx < N → (genGo N resp remaining attempt idx).finalIdx < N := by
  intro remaining
  induction remaining with
  | zero => intro attempt idx h; exact h
  | succ r ih =>
    intro attempt idx h
    have hm : (idx + 1) % N < N := Nat.mod_lt _ hN
    cases hr : resp attempt with
    | ok a => simp [genGo, hr]; exact hm
    | http s =>
      by_cases hs : s ∈ backoffStatuses
      · simp only [genGo, hr]
        rw [if_pos hs]
        exact ih _ _ hm
      · simp only [genGo, hr]
        rw [if_neg hs]
        exact ih _ _ hm
    | exc => simp only [genGo, hr]; exact ih _ _ hm

lemma generate_answer_all_ok (N : Nat) (ans : String) (idx : Nat) :
    generate_answer N (fun _ => Outcome.ok ans) 3 idx =
      ⟨some ans, [], [idx], (idx + 1) % N⟩ := rfl

lemma cons_mod_rotation (N idx r : Nat) (h : idx < N) :
    idx :: (List.range r).map (fun j => ((idx + 1) % N + j) % N) =
      (List.range (r + 1)).map (fun j => (idx + j) % N) := by
  rw [List.range_succ_eq_map, List.map_cons, List.map_map]
  have h0 : (idx + 0) % N = idx := by simpa using Nat.mod_eq_of_lt h
  rw [h0]
  refine congrArg (List.cons idx) (List.map_congr_left ?_)
  intro a _
  show ((idx + 1) % N + a) % N = (idx + (a + 1)) % N
  rw [Nat.mod_add_mod]
  congr 1
  omega

lemma consecutiveCalls_spec (N : Nat) (ans : String) (hN : 0 < N) :
    ∀ count idx, idx < N →
      (consecutiveCalls N ans idx count).1 =
        (List.range count).map (fun j => (idx + j) % N) ∧
      (consecutiveCalls N ans idx count).2 = (idx + count) % N := by
  intro count
  induction count with
  | zero =>
    intro idx h
    exact ⟨rfl, by simpa using (Nat.mod_eq_of_lt h).symm⟩
  | succ c ih =>
    intro idx h
    have hm : (idx + 1) % N < N := Nat.mod_lt _ hN
    obtain ⟨h1, h2⟩ := ih ((idx + 1) % N) hm
    constructor
    · show (generate_answer N (fun _ => Outcome.ok ans) 3 idx).keys ++
        (consecutiveCalls N ans (generate_answer N (fun _ => Outcome.ok ans) 3 idx).finalIdx c).1 =
        _
      rw [generate_answer_all_ok, h1]
      exact cons_mod_rotation N idx c h
    · show (consecutiveCalls N ans (generate_answer N (fun _ => Outcome.ok ans) 3 idx).finalIdx c).2 = _
      rw [generate_answer_all_ok]
      show (consecutiveCalls N ans ((idx + 1) % N) c).2 = _
      rw [h2, Nat.mod_add_mod]
      congr 1
      omega

/-- The `time.sleep` performed (or skipped) for one failed HTTP attempt. -/
def sleepFor (resp : Nat → Outcome) (k : Nat) : Option Nat :=
  match resp k with
  | Outcome.http s => if s ∈ backoffStatuses then some (2 ^ k) else none
  | Outcome.ok _ => none
  | Outcome.exc => some 1

lemma genGo_http_all (N : Nat) (resp : Nat → Outcome)
    (hresp : ∀ k, ∃ s, resp k = Outcome.http s) :
    ∀ remaining attempt idx,
      (genGo N resp remaining attempt idx).result = none ∧
      (genGo N resp remaining attempt idx).sleeps =
        (List.range' attempt remaining).filterMap (sleepFor resp) ∧
      (genGo N resp remaining attempt idx).keys.length = remaining := by
  intro remaining
  induction remaining with
  | zero => intro attempt idx; exact ⟨rfl, rfl, rfl⟩
  | succ r ih =>
    intro attempt idx
    obtain ⟨s, hs⟩ := hresp attempt
    obtain ⟨ih1, ih2, ih3⟩ := ih (attempt + 1) ((idx + 1) % N)
    rw [List.range'_succ, List.filterMap_cons]
    by_cases hb : s ∈ backoffStatuses
    · simp only [genGo, hs, sleepFor, if_pos hb]
      exact ⟨ih1, by rw [ih2], by simpa using ih3⟩
    · simp only [genGo, hs, sleepFor, if_neg hb]
      exact ⟨ih1, by rw [ih2], by simpa using ih3⟩

lemma genGo_keys_rotation (N : Nat) (resp : Nat → Outcome) (hN : 0 < N)
    (hresp : ∀ k a, resp k ≠ Outcome.ok a) :
    ∀ remaining attempt idx, idx < N →
      (genGo N resp remaining attempt idx).keys =
        (List.range remaining).map (fun j => (idx + j) % N) := by
  intro remaining
  induction remaining with
  | zero => intro attempt idx _; rfl
  | succ r ih =>
    intro attempt idx h
    have hm : (idx + 1) % N < N := Nat.mod_lt _ hN
    cases hr : resp attempt with
    | ok a => exact absurd hr (hresp attempt a)
    | http s =>
      by_cases hs : s ∈ backoffStatuses
      · simp only [genGo, hr]
        rw [if_pos hs]
        show idx :: (genGo N resp r (attempt + 1) ((idx + 1) % N)).keys = _
        rw [ih (attempt + 1) ((idx + 1) % N) hm]
        exact cons_mod_rotation N idx r h
      · simp only [genGo, hr]
        rw [if_neg hs]
        show idx :: (genGo N resp r (attempt + 1) ((idx + 1) % N)).keys = _
        rw [ih (attempt + 1) ((idx + 1) % N) hm]
        exact cons_mod_rotation N idx r h
    | exc =>
      simp only [genGo, hr]
      show idx :: (genGo N resp r (attempt + 1) ((idx + 1) % N)).keys = _
      rw [ih (attempt + 1) ((idx + 1) % N) hm]
      exact cons_mod_rotation N idx r h

/-! ## Claims C3, C4, C5, C9 -/

/-- C3 (counterexample): the claim says every 5xx status triggers a backoff
sleep before the next attempt, but status 504 is a 5xx code outside the
source's hard-coded list `[429, 500, 502, 503]`: three attempts run (three
credentials consumed) with no sleep at all. -/
theorem C3_5xx_no_sleep_counterexample :
    500 ≤ 504 ∧ 504 < 600 ∧
    (generate_answer 2 (fun _ => Outcome.http 504) 3 0).sleeps = [] ∧
    (generate_answer 2 (fun _ => Outcome.http 504) 3 0).keys = [0, 1, 0] ∧
    (generate_answer 2 (fun _ => Outcome.http 504) 3 0).result = none := by
  decide

/-- C3 (amended): on every run whose attempts all return non-success HTTP
statuses, the client sleeps `2^attempt` before the next attempt exactly when
the status is in `[429, 500, 502, 503]` (not every 5xx), skips the sleep for
every other non-success status, and every attempt (either way) rotates to
the next credential. -/
theorem C3_backoff_amended (N : Nat) (resp : Nat → Outcome) (maxR idx : Nat)
    (hN : 0 < N) (hidx : idx < N)
    (h : ∀ k, ∃ s, resp k = Outcome.http s ∧ s ≠ 200) :
    (generate_answer N resp maxR idx).sleeps =
      (List.range maxR).filterMap (sleepFor resp) ∧
    (generate_answer N resp maxR idx).keys =
      (List.range maxR).map (fun j => (idx + j) % N) ∧
    (generate_answer N resp maxR idx).result = none := by
  obtain ⟨h1, h2, _⟩ := genGo_http_all N resp (fun k => ⟨(h k).choose, (h k).choose_spec.1⟩)
    maxR 0 idx
  refine ⟨?_, ?_, h1⟩
  · rw [List.range_eq_range']
    exact h2
  · exact genGo_keys_rotation N resp hN
      (fun k a hk => by
        obtain ⟨s, hs, _⟩ := h k
        rw [hk] at hs
        exact Outcome.noConfusion hs)
      maxR 0 idx hidx

/-- C3 witness: a run whose three attempts all return 504 performs no sleep
and rotates through credentials 0, 1, 0. -/
theorem C3_backoff_amended_witness :
    (generate_answer 2 (fun _ => Outcome.http 504) 3 0).sleeps = [] ∧
    (generate_answer 2 (fun _ => Outcome.http 504) 3 0).keys = [0, 1, 0] := by
  obtain ⟨h1, h2, _⟩ := C3_backoff_amended 2 (fun _ => Outcome.http 504) 3 0
    (by decide) (by decide) (fun _ => ⟨504, rfl, by decide⟩)
  exact ⟨h1.trans (by decide), h2.trans (by decide)⟩

/-- C4: when every attempt returns a 503 status, exactly `max_retries`
attempts occur (one credential consumed per attempt), the backoff sleeps are
`2^0, 2^1, 2^2, …`, and the call returns `none` rather than raising. -/
theorem C4_all_503_exhaustion (N : Nat) (resp : Nat → Outcome) (maxR idx : Nat)
    (h : ∀ k, resp k = Outcome.http 503) :
    (generate_answer N resp maxR idx).result = none ∧
    (generate_answer N resp maxR idx).sleeps = (List.range maxR).map (fun k => 2 ^ k) ∧
    (generate_answer N resp maxR idx).keys.length = maxR := by
  obtain ⟨h1, h2, h3⟩ := genGo_http_all N resp (fun k => ⟨503, h k⟩) maxR 0 idx
  refine ⟨h1, ?_, h3⟩
  show (genGo N resp maxR 0 idx).sleeps = (List.range maxR).map (fun k => 2 ^ k)
  rw [List.range_eq_range', h2]
  have hcong : ∀ k ∈ List.range' 0 maxR, sleepFor resp k = (some ∘ fun k => 2 ^ k) k := by
    intro k _
    simp only [sleepFor, h k, Function.comp_apply]
    rw [if_pos (by decide)]
  rw [List.filterMap_congr hcong, List.filterMap_eq_map]

/-- C4 witness: three 503 attempts sleep 1s, 2s, 4s and return `none`. -/
theorem C4_all_503_exhaustion_witness :
    (generate_answer 2 (fun _ => Outcome.http 503) 3 0).result = none ∧
    (generate_answer 2 (fun _ => Outcome.http 503) 3 0).sleeps = [1, 2, 4] ∧
    (generate_answer 2 (fun _ => Outcome.http 503) 3 0).keys.length = 3 := by
  obtain ⟨h1, h2, h3⟩ := C4_all_503_exhaustion 2 (fun _ => Outcome.http 503) 3 0 (fun _ => rfl)
  exact ⟨h1, h2.trans (by decide), h3⟩

/-- C5: starting from a fresh client (cursor 0), consecutive first-attempt
successful calls consume credential `(i-1) mod N` on the `i`-th call and
advance the shared cursor by one modulo `N` per call; in particular `N`
consecutive successful calls consume each credential exactly once, in pool
order (`List.range N`). -/
theorem C5_round_robin (N : Nat) (ans : String) (hN : 0 < N) :
    (∀ count, (consecutiveCalls N ans 0 count).1 =
        (List.range count).map (fun j => j % N) ∧
      (consecutiveCalls N ans 0 count).2 = count % N) ∧
    (consecutiveCalls N ans 0 N).1 = List.range N := by
  constructor
  · intro count
    obtain ⟨h1, h2⟩ := consecutiveCalls_spec N ans hN count 0 hN
    refine ⟨?_, ?_⟩
    · rw [h1]
      exact List.map_congr_left (fun a _ => by rw [Nat.zero_add])
    · rw [h2, Nat.zero_add]
  · obtain ⟨h1, _⟩ := consecutiveCalls_spec N ans hN N 0 hN
    rw [h1]
    have hcong : ∀ a ∈ List.range N, (fun j => (0 + j) % N) a = id a := by
      intro a ha
      rw [List.mem_range] at ha
      simp [Nat.mod_eq_of_lt ha]
    rw [List.map_congr_left hcong, List.map_id]

/-- C5 witness: with a pool of 3 credentials, 3 consecutive successful calls
use credentials 0, 1, 2. -/
theorem C5_round_robin_witness : (consecutiveCalls 3 "x" 0 3).1 = List.range 3 :=
  (C5_round_robin 3 "x" (by decide)).2

/-- C9: the rotation-cursor invariant `current_key_index < len(api_keys)`
holds after construction with a non-empty pool (cursor 0), is preserved by
`get_next_api_key`, and is preserved by the whole `generate_answer` retry
loop (which consumes keys only through the same rotation). -/
theorem C9_cursor_invariant (keys : List String) (g0 : AIAnswerGenerator)
    (h0 : AIAnswerGenerator.init keys = some g0) :
    g0.current_key_index < g0.api_keys.length ∧
    (∀ g : AIAnswerGenerator, g.current_key_index < g.api_keys.length →
      (get_next_api_key g).2.current_key_index < (get_next_api_key g).2.api_keys.length) ∧
    (∀ (N : Nat) (resp : Nat → Outcome) (remaining attempt idx : Nat),
      0 < N → idx < N → (genGo N resp remaining attempt idx).finalIdx < N) := by
  refine ⟨?_, ?_, ?_⟩
  · unfold AIAnswerGenerator.init at h0
    by_cases h : keys = []
    · rw [if_pos h] at h0
      exact absurd h0 (by simp)
    · rw [if_neg h] at h0
      injection h0 with h0
      rw [← h0]
      exact List.length_pos.mpr h
  · intro g hg
    show (g.current_key_index + 1) % g.api_keys.length < g.api_keys.length
    exact Nat.mod_lt _ (Nat.lt_of_le_of_lt (Nat.zero_le _) hg)
  · intro N resp remaining attempt idx hN hidx
    exact genGo_finalIdx_lt N resp hN remaining attempt idx hidx

/-- C9 witness: a two-key pool starts with cursor 0 < 2. -/
theorem C9_cursor_invariant_witness :
    (⟨["k1", "k2"], 0⟩ : AIAnswerGenerator).current_key_index <
      (⟨["k1", "k2"], 0⟩ : AIAnswerGenerator).api_keys.length :=
  (C9_cursor_invariant ["k1", "k2"] ⟨["k1", "k2"], 0⟩ rfl).1

/-! ## Lemmas about the lexical retriever -/

lemma mem_insertScored {x y : Scored} : ∀ {l : List Scored},
    y ∈ insertScored x l ↔ y = x ∨ y ∈ l := by
  intro l
  induction l with
  | nil => simp [insertScored]
  | cons z zs ih =>
    simp only [insertScored]
    by_cases h : z.score ≤ x.score
    · rw [if_pos h]
      simp
    · rw [if_neg h]
      simp only [List.mem_cons, ih]
      tauto

lemma insertScored_sorted {x : Scored} : ∀ {l : List Scored},
    l.Pairwise (fun a b => b.score ≤ a.score) →
    (insertScored x l).Pairwise (fun a b => b.score ≤ a.score) := by
  intro l
  induction l with
  | nil => intro _; simp [insertScored]
  | cons z zs ih =>
    intro h
    rw [List.pairwise_cons] at h
    obtain ⟨hz, hzs⟩ := h
    simp only [insertScored]
    by_cases hc : z.score ≤ x.score
    · rw [if_pos hc]
      refine List.Pairwise.cons ?_ (List.Pairwise.cons hz hzs)
      intro b hb
      rcases List.mem_cons.mp hb with hb | hb
      · exact hb ▸ hc
      · exact le_trans (hz b hb) hc
    · rw [if_neg hc]
      refine List.Pairwise.cons ?_ (ih hzs)
      intro b hb
      rcases mem_insertScored.mp hb with hb | hb
      · rw [hb]
        exact le_of_lt (lt_of_not_ge hc)
      · exact hz b hb

lemma insertScored_stable {x : Scored} : ∀ {l : List Scored},
    l.Pairwise (fun a b => a.score = b.score → a.idx < b.idx) →
    (∀ y ∈ l, x.score = y.score → x.idx < y.idx) →
    (insertScored x l).Pairwise (fun a b => a.score = b.score → a.idx < b.idx) := by
  intro l
  induction l with
  | nil => intro _ _; simp [insertScored]
  | cons z zs ih =>
    intro h hx
    rw [List.pairwise_cons] at h
    obtain ⟨hz, hzs⟩ := h
    simp only [insertScored]
    by_cases hc : z.score ≤ x.score
    · rw [if_pos hc]
      refine List.Pairwise.cons ?_ (List.Pairwise.cons hz hzs)
      intro b hb
      exact hx b hb
    · rw [if_neg hc]
      refine List.Pairwise.cons ?_ (ih hzs (fun y hy => hx y (List.mem_cons_of_mem z hy)))
      intro b hb heq
      rcases mem_insertScored.mp hb with hb | hb
      · rw [hb] at heq
        exact absurd (le_of_eq heq) hc
      · exact hz b hb heq

lemma mem_sortScored {y : Scored} : ∀ {l : List Scored}, y ∈ sortScored l ↔ y ∈ l := by
  intro l
  induction l with
  | nil => simp [sortScored]
  | cons x xs ih => simp [sortScored, mem_insertScored, ih]

lemma sortScored_sorted (l : List Scored) :
    (sortScored l).Pairwise (fun a b => b.score ≤ a.score) := by
  induction l with
  | nil => simp [sortScored]
  | cons x xs ih => exact insertScored_sorted ih

lemma sortScored_stable (l : List Scored)
    (h : l.Pairwise (fun a b => a.idx < b.idx)) :
    (sortScored l).Pairwise (fun a b => a.score = b.score → a.idx < b.idx) := by
  induction l with
  | nil => simp [sortScored]
  | cons x xs ih =>
    rw [List.pairwise_cons] at h
    obtain ⟨hx, hxs⟩ := h
    exact insertScored_stable (ih hxs) (fun y hy _ => hx y (mem_sortScored.mp hy))

lemma scoreAll_facts (q : List Char) : ∀ (ts : List (List Char)) (i : Nat),
    (∀ x ∈ scoreAll q i ts, i ≤ x.idx ∧ 0 < x.score) ∧
    (scoreAll q i ts).Pairwise (fun a b => a.idx < b.idx) := by
  intro ts
  induction ts with
  | nil => intro i; exact ⟨by simp [scoreAll], by simp [scoreAll]⟩
  | cons t ts ih =>
    intro i
    obtain ⟨ihm, ihp⟩ := ih (i + 1)
    by_cases hsc : 0 < scoreChunk q t
    · constructor
      · intro x hx
        simp only [scoreAll] at hx
        rw [if_pos hsc] at hx
        rcases List.mem_cons.mp hx with hx | hx
        · rw [hx]
          exact ⟨le_refl i, hsc⟩
        · obtain ⟨h1, h2⟩ := ihm x hx
          exact ⟨le_trans (Nat.le_succ i) h1, h2⟩
      · simp only [scoreAll]
        rw [if_pos hsc]
        refine List.Pairwise.cons ?_ ihp
        intro b hb
        exact Nat.lt_of_lt_of_le (Nat.lt_succ_self i) (ihm b hb).1
    · constructor
      · intro x hx
        simp only [scoreAll] at hx
        rw [if_neg hsc] at hx
        obtain ⟨h1, h2⟩ := ihm x hx
        exact ⟨le_trans (Nat.le_succ i) h1, h2⟩
      · simp only [scoreAll]
        rw [if_neg hsc]
        exact ihp

/-! ## Claim C6 -/

/-- C6: `simple_text_search` keeps only chunks with strictly positive score,
returns them in descending score order with the stable tie-break that equal
scores keep their original chunk order (smaller original position first), and
truncates the output to at most `top_k` entries. -/
theorem C6_search_filter_sort_truncate (query : List Char) (chunks : List (List Char))
    (top_k : Nat) :
    (∀ r ∈ simple_text_search query chunks top_k, 0 < r.score) ∧
    (simple_text_search query chunks top_k).length ≤ top_k ∧
    (simple_text_search query chunks top_k).Pairwise (fun a b => b.score ≤ a.score) ∧
    (simple_text_search query chunks top_k).Pairwise
      (fun a b => a.score = b.score → a.idx < b.idx) := by
  unfold simple_text_search
  by_cases h : chunks = []
  · rw [if_pos h]
    simp
  · rw [if_neg h]
    have hsub : ((sortScored (scoreAll query 0 chunks)).take top_k).Sublist
        (sortScored (scoreAll query 0 chunks)) := List.take_sublist _ _
    refine ⟨?_, List.length_take_le _ _, ?_, ?_⟩
    · intro r hr
      exact ((scoreAll_facts query chunks 0).1 r (mem_sortScored.mp (hsub.subset hr))).2
    · exact (sortScored_sorted _).sublist hsub
    · exact (sortScored_stable _ (scoreAll_facts query chunks 0).2).sublist hsub

/-! ## Claim C8 -/

lemma containsSub_nil : ∀ l : List Char, containsSub [] l = true := by
  intro l
  cases l with
  | nil => rfl
  | cons c cs => simp [containsSub, startsWith]

lemma scoreChunk_nil_query (t : List Char) : scoreChunk [] t = 1 / 2 := by
  show (0 : ℚ) + (if containsSub (pyLower []) (pyLower t) = true then (1 : ℚ) / 2 else 0) = 1 / 2
  rw [show pyLower ([] : List Char) = [] from rfl, containsSub_nil (pyLower t)]
  norm_num

lemma scoreAll_nil_query : ∀ (ts : List (List Char)) (i : Nat),
    (scoreAll [] i ts).map (fun r => r.text) = ts ∧
    (scoreAll [] i ts).map (fun r => r.idx) = List.range' i ts.length ∧
    ∀ r ∈ scoreAll [] i ts, r.score = 1 / 2 := by
  intro ts
  induction ts with
  | nil => intro i; exact ⟨rfl, rfl, by simp [scoreAll]⟩
  | cons t ts ih =>
    intro i
    obtain ⟨ih1, ih2, ih3⟩ := ih (i + 1)
    have hpos : 0 < scoreChunk [] t := by
      rw [scoreChunk_nil_query]
      norm_num
    refine ⟨?_, ?_, ?_⟩
    · simp only [scoreAll]
      rw [if_pos hpos, List.map_cons, ih1]
    · simp only [scoreAll]
      rw [if_pos hpos, List.map_cons, ih2, List.length_cons, List.range'_succ]
    · intro r hr
      simp only [scoreAll] at hr
      rw [if_pos hpos] at hr
      rcases List.mem_cons.mp hr with h | h
      · rw [h]
        exact scoreChunk_nil_query t
      · exact ih3 r h

lemma insertScored_all_eq {x : Scored} {l : List Scored} {c : ℚ}
    (hx : x.score = c) (hl : ∀ y ∈ l, y.score = c) : insertScored x l = x :: l := by
  cases l with
  | nil => rfl
  | cons y ys =>
    simp only [insertScored]
    rw [if_pos (by rw [hx, hl y (List.mem_cons_self y ys)])]

lemma sortScored_all_eq : ∀ (l : List Scored) (c : ℚ),
    (∀ y ∈ l, y.score = c) → sortScored l = l := by
  intro l
  induction l with
  | nil => intro c _; rfl
  | cons x xs ih =>
    intro c h
    simp only [sortScored]
    rw [ih c (fun y hy => h y (List.mem_cons_of_mem x hy))]
    exact insertScored_all_eq (h x (List.mem_cons_self x xs))
      (fun y hy => h y (List.mem_cons_of_mem x hy))

/-- C8: for the empty query against a non-empty chunk list, every chunk gets
the 0.5 substring bonus (the empty string is a substring of every text) and
no word-overlap score, so the search returns the first `top_k` chunks in
original order, each with score `1/2` — in particular a non-empty result. -/
theorem C8_empty_query_returns_chunks (chunks : List (List Char)) (top_k : Nat)
    (hne : chunks ≠ []) (hk : 0 < top_k) :
    simple_text_search [] chunks top_k ≠ [] ∧
    (simple_text_search [] chunks top_k).length = min top_k chunks.length ∧
    (∀ r ∈ simple_text_search [] chunks top_k, r.score = 1 / 2) ∧
    (simple_text_search [] chunks top_k).map (fun r => r.text) = chunks.take top_k ∧
    (simple_text_search [] chunks top_k).map (fun r => r.idx) =
      List.range (min top_k chunks.length) := by
  obtain ⟨h1, h2, h3⟩ := scoreAll_nil_query chunks 0
  have hsort : sortScored (scoreAll [] 0 chunks) = scoreAll [] 0 chunks :=
    sortScored_all_eq _ (1 / 2) h3
  have hdef : simple_text_search [] chunks top_k = (scoreAll [] 0 chunks).take top_k := by
    unfold simple_text_search
    rw [if_neg hne, hsort]
  have hlen : (scoreAll [] 0 chunks).length = chunks.length := by
    have := congrArg List.length h1
    simpa using this
  refine ⟨?_, ?_, ?_, ?_, ?_⟩
  · rw [hdef]
    apply List.ne_nil_of_length_pos
    rw [List.length_take, hlen]
    exact lt_min hk (List.length_pos.mpr hne)
  · rw [hdef, List.length_take, hlen]
  · intro r hr
    rw [hdef] at hr
    exact h3 r ((List.take_sublist _ _).subset hr)
  · rw [hdef, List.map_take, h1]
  · rw [hdef, List.map_take, h2, ← List.range_eq_range', List.take_range]

/-- C8 witness: empty query over two chunks returns both, scores 1/2 each. -/
theorem C8_empty_query_returns_chunks_witness :
    simple_text_search [] ["ab".data, "cd".data] 3 ≠ [] :=
  (C8_empty_query_returns_chunks ["ab".data, "cd".data] 3 (by decide) (by decide)).1

/-! ## Claim C7 -/

/-- C7 (counterexample): with an empty questions list but a falsy document
argument (here: `pdf_content = b""`, which Python treats as absent), the
`except` branch of `process_document_and_answer` returns a one-element error
list, not the empty list the claim promises for every document input. -/
theorem C7_empty_questions_counterexample :
    process_document_and_answer none (some []) (fun _ => none)
      (fun _ => ⟨true, ""⟩) (fun _ => ⟨true, "", none⟩) (some []) =
      ["Processing failed: Either pdf_path or pdf_content must be provided"] ∧
    ["Processing failed: Either pdf_path or pdf_content must be provided"] ≠
      ([] : List String) := by
  exact ⟨rfl, by simp⟩

/-- C7 (amended): with an empty questions list the batch pipeline returns an
empty answers list — also when document processing or answering fails —
provided the argument-resolution step does not raise, i.e. a non-empty
`pdf_content` is supplied, or `pdf_content` is absent/empty and a truthy
`pdf_path` is supplied whose read succeeds.  (When resolution raises, the
`except` branch returns a one-element error list instead.) -/
theorem C7_empty_questions_amended (pdf_path : Option String)
    (pdf_content : Option (List Nat)) (fileRead : String → Option (List Nat))
    (procDoc : List Nat → DocResult) (answerQ : String → AnswerResult)
    (questions0 : Option (List String))
    (hq : questions0.getD [] = [])
    (h : (∃ b, pdf_content = some b ∧ b ≠ []) ∨
         ((∀ b, pdf_content = some b → b = []) ∧
          ∃ p c, pdf_path = some p ∧ p ≠ "" ∧ fileRead p = some c)) :
    process_document_and_answer pdf_path pdf_content fileRead procDoc answerQ questions0 = [] := by
  rcases h with ⟨b, hb, hbne⟩ | ⟨hempty, p, c, hp, hpne, hread⟩
  · subst hb
    simp only [process_document_and_answer, hq, decide_eq_true_eq]
    have hct : decide (b ≠ []) = true := decide_eq_true hbne
    simp only [hct, Bool.not_true, Bool.and_false, Bool.false_eq_true, if_false,
      Bool.not_eq_true', decide_eq_false_iff_not, Option.getD_some]
    split
    · simp
    · simp
  · subst hp
    have hpt : decide (p ≠ "") = true := decide_eq_true hpne
    rcases hc : pdf_content with _ | b
    · simp only [process_document_and_answer, hq, Option.getD_some, hpt, hread,
        Bool.not_false, Bool.and_true, if_true]
      split <;> simp
    · have hb : b = [] := hempty b hc
      subst hb
      simp only [process_document_and_answer, hq, Option.getD_some, hpt, hread, ne_eq,
        not_true_eq_false, decide_False, Bool.not_false, Bool.and_true, if_true]
      split <;> simp

/-- C7 witness: non-empty document bytes, a failing document processor, and
an empty questions list yield the empty answers list. -/
theorem C7_empty_questions_amended_witness :
    process_document_and_answer none (some [5]) (fun _ => none)
      (fun _ => ⟨false, "bad pdf"⟩) (fun _ => ⟨true, "", none⟩) none = [] :=
  C7_empty_questions_amended none (some [5]) (fun _ => none)
    (fun _ => ⟨false, "bad pdf"⟩) (fun _ => ⟨true, "", none⟩) none rfl
    (Or.inl ⟨[5], rfl, by simp⟩)

/-! ## Claim C10 -/

lemma newline_not_mem_collapseWsAux : ∀ (l : List Char) (b : Bool),
    '\n' ∉ collapseWsAux b l := by
  intro l
  induction l with
  | nil => intro b; simp [collapseWsAux]
  | cons c cs ih =>
    intro b
    simp only [collapseWsAux]
    by_cases hc : isPySpace c
    · rw [if_pos hc]
      cases b with
      | true => exact ih true
      | false =>
        intro hmem
        rcases List.mem_cons.mp hmem with h | h
        · exact absurd h (by decide)
        · exact ih true h
    · rw [if_neg hc]
      intro hmem
      rcases List.mem_cons.mp hmem with h | h
      · rw [← h] at hc
        exact hc (by decide)
      · exact ih false h

lemma collapseNlAux_no_newline_id : ∀ (l : List Char), '\n' ∉ l →
    ∀ (b : Bool), collapseNlAux b l = l := by
  intro l
  induction l with
  | nil => intro _ b; rfl
  | cons c cs ih =>
    intro h b
    have hc : ¬(c = '\n') := fun hcc => h (by rw [hcc] at *; exact List.mem_cons_self _ _)
    simp only [collapseNlAux]
    rw [if_neg hc, ih (fun hm => h (List.mem_cons_of_mem c hm)) false]

lemma mem_pyStrip {c : Char} {l : List Char} (h : c ∈ pyStrip l) : c ∈ l := by
  unfold pyStrip at h
  rw [List.mem_reverse] at h
  have h2 := (List.dropWhile_sublist _).subset h
  rw [List.mem_reverse] at h2
  exact (List.dropWhile_sublist _).subset h2

/-- C10 (counterexample): the claim says `clean_text` output never contains a
run of two or more whitespace characters, but the special-character removal
runs after the whitespace collapse and can merge two single spaces:
`clean_text "a @ b" = "a  b"`. -/
theorem C10_clean_text_counterexample :
    clean_text "a @ b".data = ['a', ' ', ' ', 'b'] ∧ isPySpace ' ' = true := by
  decide

/-- C10 (amended): `clean_text` output contains no newline character, and the
whitespace collapse does make the newline-normalization step a no-op; but the
subsequent special-character removal can merge the single spaces around a
removed character, so runs of two or more spaces can survive to the output. -/
theorem C10_no_newline_amended (l : List Char) :
    '\n' ∉ clean_text l ∧
    collapseNlRuns (collapseWsRuns l) = collapseWsRuns l := by
  have hnl : '\n' ∉ collapseWsRuns l := newline_not_mem_collapseWsAux l false
  have hid : collapseNlRuns (collapseWsRuns l) = collapseWsRuns l :=
    collapseNlAux_no_newline_id _ hnl false
  refine ⟨?_, hid⟩
  intro hmem
  unfold clean_text at hmem
  have h2 := mem_pyStrip hmem
  rw [show collapseNlRuns (collapseWsRuns l) = collapseWsRuns l from hid] at h2
  exact hnl (List.mem_of_mem_filter h2)

/-! ## Lemmas about `rfind` and `compEnd` -/

lemma rfindAux_empty (l : List Char) (lo : Nat) : ∀ hi : Nat, hi ≤ lo →
    rfindAux l lo hi = -1 := by
  intro hi
  induction hi with
  | zero => intro _; rfl
  | succ k ih =>
    intro h
    simp only [rfindAux]
    rw [if_neg (fun hc => absurd hc.1 (Nat.not_le.mpr (Nat.lt_of_succ_le h)))]
    exact ih (Nat.le_of_succ_le h)

lemma rfindAux_eq (l : List Char) (lo j : Nat) : ∀ hi : Nat,
    lo ≤ j → j < hi → l.getD j 'x' = ' ' →
    (∀ k : Nat, j < k → k < hi → l.getD k 'x' ≠ ' ') →
    rfindAux l lo hi = (j : Int) := by
  intro hi
  induction hi with
  | zero => intro _ h _ _; omega
  | succ k ih =>
    intro hlo hj hsp hmax
    simp only [rfindAux]
    by_cases hk : j = k
    · subst hk
      rw [if_pos ⟨hlo, hsp⟩]
    · have hjk : j < k := by omega
      rw [if_neg (fun hc => hmax k hjk (Nat.lt_succ_self k) hc.2)]
      exact ih hlo hjk hsp (fun m hm1 hm2 => hmax m hm1 (Nat.lt_succ_of_lt hm2))

lemma rfindAux_cases (l : List Char) (lo : Nat) : ∀ hi : Nat,
    rfindAux l lo hi = -1 ∨
    ∃ j : Nat, rfindAux l lo hi = (j : Int) ∧ lo ≤ j ∧ j < hi ∧ l.getD j 'x' = ' ' ∧
      ∀ k : Nat, j < k → k < hi → l.getD k 'x' ≠ ' ' := by
  intro hi
  induction hi with
  | zero => left; rfl
  | succ k ih =>
    simp only [rfindAux]
    by_cases hk : lo ≤ k ∧ l.getD k 'x' = ' '
    · rw [if_pos hk]
      right
      exact ⟨k, rfl, hk.1, Nat.lt_succ_self k, hk.2, fun m hm1 hm2 => by omega⟩
    · rw [if_neg hk]
      rcases ih with h | ⟨j, h1, h2, h3, h4, h5⟩
      · left
        exact h
      · right
        refine ⟨j, h1, h2, Nat.lt_succ_of_lt h3, h4, ?_⟩
        intro m hm1 hm2 hsp
        by_cases hmk : m = k
        · subst hmk
          exact hk ⟨le_trans h2 (le_of_lt hm1), hsp⟩
        · exact h5 m hm1 (by omega) hsp

lemma pyClamp_nonneg_lt (i : Int) (n : Nat) (h0 : 0 ≤ i) (h1 : i < (n : Int)) :
    pyClamp i n = i.toNat := by
  unfold pyClamp
  rw [if_neg (not_lt.mpr h0)]
  exact min_eq_left (by omega)

lemma pyClamp_neg (i : Int) (n : Nat) (h0 : i < 0) :
    pyClamp i n = (i + n).toNat := by
  unfold pyClamp
  rw [if_pos h0]

/-- Bounds on `compEnd`: the window end never exceeds `start + chunk_size`
and never drops below `-1`. -/
lemma compEnd_le (text : List Char) (cs ov : Int) (hcs : ov < cs) (hov : 0 ≤ ov)
    (s : Int) (hV : -1 - ov ≤ s) :
    -1 ≤ compEnd text cs s ∧ compEnd text cs s ≤ s + cs := by
  have he0 : (0 : Int) ≤ s + cs := by omega
  unfold compEnd
  by_cases h : s + cs < (text.length : Int)
  · rw [if_pos h]
    rcases rfindAux_cases text (pyClamp s text.length) (pyClamp (s + cs) text.length)
      with hr | ⟨j, h1, _, h3, _, _⟩
    · unfold pyRfindSpace
      rw [hr]
      by_cases hc : s < -1
      · rw [if_pos hc]
        omega
      · rw [if_neg hc]
        omega
    · unfold pyRfindSpace
      rw [h1]
      have hjlt : (j : Int) < s + cs := by
        have := pyClamp_nonneg_lt (s + cs) text.length he0 h
        rw [this] at h3
        omega
      by_cases hc : s < (j : Int)
      · rw [if_pos hc]
        have hj0 : (0 : Int) ≤ (j : Int) := Int.natCast_nonneg _
        constructor
        · omega
        · omega
      · rw [if_neg hc]
        omega
  · rw [if_neg h]
    omega

lemma nextStart_V (text : List Char) (cs ov : Int) (hcs : ov < cs) (hov : 0 ≤ ov)
    (s : Int) (hV1 : -1 - ov ≤ s) (hV2 : 0 ≤ s ∨ cs < (text.length : Int)) :
    -1 - ov ≤ nextStart text cs ov s ∧
    (0 ≤ nextStart text cs ov s ∨ cs < (text.length : Int)) := by
  obtain ⟨hlo, hhi⟩ := compEnd_le text cs ov hcs hov s hV1
  constructor
  · unfold nextStart
    omega
  · by_cases h : 0 ≤ nextStart text cs ov s
    · exact Or.inl h
    · right
      unfold nextStart at h
      unfold compEnd at h hhi hlo
      by_cases hb : s + cs < (text.length : Int)
      · rcases hV2 with hV2 | hV2
        · omega
        · exact hV2
      · rw [if_neg hb] at h
        rcases hV2 with hV2 | hV2
        · omega
        · exact hV2

/-! ## Non-termination lemmas for the chunker -/

lemma createChunksGo_fixed (text : List Char) (cs ov : Int) (s : Int)
    (hs : s < (text.length : Int)) (hfix : nextStart text cs ov s = s) :
    ∀ (fuel : Nat) (cid : Nat) (acc : List Chunk),
      createChunksGo text cs ov fuel s cid acc = none := by
  intro fuel
  induction fuel with
  | zero => intro cid acc; rfl
  | succ f ih =>
    intro cid acc
    simp only [createChunksGo]
    rw [if_pos hs, hfix, if_neg (not_le.mpr hs)]
    exact ih _ _

lemma createChunksGo_cycle (text : List Char) (cs ov : Int) :
    ∀ (fuel : Nat) (s t : Int), s < (text.length : Int) → t < (text.length : Int) →
      nextStart text cs ov s = t → nextStart text cs ov t = s →
      ∀ (cid : Nat) (acc : List Chunk),
        createChunksGo text cs ov fuel s cid acc = none := by
  intro fuel
  induction fuel with
  | zero => intro s t _ _ _ _ cid acc; rfl
  | succ f ih =>
    intro s t hs ht h1 h2 cid acc
    simp only [createChunksGo]
    rw [if_pos hs, h1, if_neg (not_le.mpr ht)]
    exact ih t s ht hs h2 h1 _ _

lemma compEnd_neg (text : List Char) (cs ov : Int) (hcs : ov < cs) (hov : 0 ≤ ov)
    (hlen : cs < (text.length : Int)) (s : Int)
    (h1 : -1 - ov ≤ s) (h2 : s ≤ -2) : compEnd text cs s = -1 := by
  have he0 : (0 : Int) ≤ s + cs := by omega
  have he0len : s + cs < (text.length : Int) := by omega
  unfold compEnd
  rw [if_pos he0len]
  have hr : pyRfindSpace text s (s + cs) = -1 := by
    unfold pyRfindSpace
    apply rfindAux_empty
    rw [pyClamp_neg s text.length (by omega), pyClamp_nonneg_lt (s + cs) text.length he0 he0len]
    have hle : s + cs ≤ s + (text.length : Int) := by omega
    calc (s + cs).toNat ≤ (s + (text.length : Int)).toNat := Int.toNat_le_toNat hle
    _ = (s + (text.length : Int)).toNat := rfl
  rw [hr, if_pos (by omega : s < -1)]

lemma createChunksGo_neg_trap (text : List Char) (cs ov : Int) (hcs : ov < cs)
    (hov : 0 ≤ ov) (hlen : cs < (text.length : Int)) :
    ∀ (fuel : Nat) (s : Int), -1 - ov ≤ s → s ≤ -2 →
      ∀ (cid : Nat) (acc : List Chunk),
        createChunksGo text cs ov fuel s cid acc = none := by
  have hlen0 : (0 : Int) ≤ (text.length : Int) := Int.natCast_nonneg _
  intro fuel
  induction fuel with
  | zero => intro s _ _ cid acc; rfl
  | succ f ih =>
    intro s hs1 hs2 cid acc
    have hlt : s < (text.length : Int) := by omega
    have hnext : nextStart text cs ov s = -1 - ov := by
      unfold nextStart
      rw [compEnd_neg text cs ov hcs hov hlen s hs1 hs2]
    simp only [createChunksGo]
    rw [if_pos hlt, hnext, if_neg (by omega)]
    exact ih (-1 - ov) (le_refl _) (by omega) _ _

/-! ## Claim C1 -/

/-- C1 (code_bug evidence): `create_chunks` has no forward-progress guard.
On the text `"ab cdefghij"` with `chunk_size = 5 > overlap = 2 ≥ 0` the first
window snaps its end back to the space at index 2, so
`start = 2 - 2 = 0` forever: the loop never terminates (our fuelled model
returns `none` for every fuel), contradicting the claimed termination. -/
theorem C1_create_chunks_infinite_loop :
    ∀ fuel : Nat, create_chunks fuel "ab cdefghij".data 5 2 = none := by
  intro fuel
  unfold create_chunks
  have hfix : nextStart "ab cdefghij".data 5 2 0 = 0 := by decide
  have hs : (0 : Int) < ("ab cdefghij".data.length : Int) := by decide
  exact createChunksGo_fixed _ _ _ _ hs hfix fuel 0 []

lemma compEnd_neg_one (text : List Char) (cs ov : Int) (hcs : ov < cs) (hov : 0 ≤ ov)
    (hlen : cs < (text.length : Int)) :
    compEnd text cs (-1) = cs - 1 ∧ chunkText text cs (-1) = [] := by
  have hlt : (-1 : Int) + cs < (text.length : Int) := by omega
  have hr : pyRfindSpace text (-1) (-1 + cs) = -1 := by
    unfold pyRfindSpace
    apply rfindAux_empty
    rw [pyClamp_neg (-1) text.length (by omega),
      pyClamp_nonneg_lt (-1 + cs) text.length (by omega) hlt]
    exact Int.toNat_le_toNat (by omega)
  have hce : compEnd text cs (-1) = cs - 1 := by
    unfold compEnd
    rw [if_pos hlt, hr, if_neg (by omega)]
    omega
  refine ⟨hce, ?_⟩
  unfold chunkText pySlice
  rw [hce]
  rw [pyClamp_neg (-1) text.length (by omega),
    pyClamp_nonneg_lt (cs - 1) text.length (by omega) (by omega)]
  have hdrop : (text.take (cs - 1).toNat).drop ((-1 + (text.length : Int)).toNat) = [] := by
    apply List.drop_eq_nil_of_le
    rw [List.length_take]
    have h1 : (cs - 1).toNat ≤ ((-1) + (text.length : Int)).toNat :=
      Int.toNat_le_toNat (by omega)
    omega
  rw [hdrop]
  rfl

/-- When a window snapped back to a space `ls` strictly after `start = s`,
any later iteration whose start `t` satisfies `0 ≤ t ≤ s`, `t < ls` and
`ls < t + cs` snaps to the same space: its window still contains `ls`, and no
later space can appear because the original window already ended after it. -/
lemma compEnd_again (text : List Char) (cs : Int) (s : Int) (hs0 : 0 ≤ s)
    (hcs0 : 0 < cs) (hlt : s + cs < (text.length : Int))
    (hsnap : s < pyRfindSpace text s (s + cs))
    (t : Int) (ht0 : 0 ≤ t) (hts : t ≤ s)
    (hstrict : t < pyRfindSpace text s (s + cs))
    (hlt2 : pyRfindSpace text s (s + cs) < t + cs) :
    compEnd text cs t = pyRfindSpace text s (s + cs) := by
  have hsl : s < (text.length : Int) := by omega
  have hclamp_s : pyClamp s text.length = s.toNat := pyClamp_nonneg_lt s _ hs0 hsl
  have hclamp_e : pyClamp (s + cs) text.length = (s + cs).toNat :=
    pyClamp_nonneg_lt _ _ (by omega) hlt
  rcases rfindAux_cases text (pyClamp s text.length) (pyClamp (s + cs) text.length)
    with hr | ⟨j, h1, h2, h3, h4, h5⟩
  · exfalso
    unfold pyRfindSpace at hsnap
    rw [hr] at hsnap
    omega
  · have hls : pyRfindSpace text s (s + cs) = (j : Int) := h1
    rw [hls] at hsnap hstrict hlt2 ⊢
    rw [hclamp_e] at h3 h5
    have htlen : t + cs < (text.length : Int) := by omega
    unfold compEnd
    rw [if_pos htlen]
    have hrt : pyRfindSpace text t (t + cs) = (j : Int) := by
      unfold pyRfindSpace
      rw [pyClamp_nonneg_lt t _ ht0 (by omega),
        pyClamp_nonneg_lt (t + cs) _ (by omega) htlen]
      apply rfindAux_eq
      · omega
      · omega
      · exact h4
      · intro k hk1 hk2
        exact h5 k hk1 (by omega)
    rw [hrt, if_pos hstrict]

/-- Lower bound on the `start_pos` of every chunk a terminating run emits
from state `s`: from `s = -1` the loop (provably without emitting) moves to
`cs - 1 - ov`, from every other state the bound is `s` itself. -/
def startBound (cs ov : Int) (s : Int) : Int := if s = -1 then cs - 1 - ov else s

lemma pushChunk_split (text : List Char) (cs : Int) (s : Int) (cid : Nat)
    (acc : List Chunk) :
    ∃ emis : List Chunk, pushChunk text cs s cid acc = acc ++ emis ∧
      (∀ c ∈ emis, c.start_pos = s ∧ c.end_pos = compEnd text cs s) ∧
      emis.Pairwise (fun a b => a.start_pos ≤ b.start_pos) ∧
      (chunkText text cs s = [] → emis = []) := by
  by_cases hct : chunkText text cs s = []
  · refine ⟨[], ?_, by simp, by simp, fun _ => rfl⟩
    unfold pushChunk
    rw [if_pos hct, List.append_nil]
  · refine ⟨[⟨cid, chunkText text cs s, s, compEnd text cs s, (chunkText text cs s).length⟩],
      ?_, ?_, ?_, fun hcon => absurd hcon hct⟩
    · unfold pushChunk
      rw [if_neg hct]
    · intro c hc
      have h := List.mem_singleton.mp hc
      subst h
      exact ⟨rfl, rfl⟩
    · exact List.pairwise_singleton _ _

/-- Main invariant of a terminating chunker run: whatever a run from state
`s` appends to `acc` has `start_pos` bounded below by `startBound`, window
`end_pos - start_pos` at most `chunk_size`, and non-decreasing `start_pos`.
Every other shape of run provably never returns (fixed point, two-cycle
through `-1`, or the negative trap). -/
lemma createChunksGo_mono (text : List Char) (cs ov : Int) (hcs : ov < cs)
    (hov : 0 ≤ ov) :
    ∀ (fuel : Nat) (s : Int) (cid : Nat) (acc out : List Chunk),
      -1 - ov ≤ s → (0 ≤ s ∨ cs < (text.length : Int)) →
      createChunksGo text cs ov fuel s cid acc = some out →
      ∃ tail, out = acc ++ tail ∧
        (∀ c ∈ tail, startBound cs ov s ≤ c.start_pos ∧ c.end_pos - c.start_pos ≤ cs) ∧
        tail.Pairwise (fun a b => a.start_pos ≤ b.start_pos) := by
  have hlen0 : (0 : Int) ≤ (text.length : Int) := Int.natCast_nonneg _
  intro fuel
  induction fuel with
  | zero =>
    intro s cid acc out _ _ h
    exact absurd h (by simp [createChunksGo])
  | succ f ih =>
    intro s cid acc out hV1 hV2 h
    simp only [createChunksGo] at h
    by_cases hs : s < (text.length : Int)
    case neg =>
      rw [if_neg hs] at h
      injection h with h
      exact ⟨[], by rw [List.append_nil]; exact h.symm, by simp, by simp⟩
    case pos =>
      rw [if_pos hs] at h
      obtain ⟨hwin1, hwin2⟩ := compEnd_le text cs ov hcs hov s hV1
      obtain ⟨emis, hpush, hemem, hepw, hect⟩ := pushChunk_split text cs s cid acc
      by_cases hbreak : (text.length : Int) ≤ nextStart text cs ov s
      · -- the `start >= len(text): break` exit
        rw [if_pos hbreak] at h
        injection h with h
        refine ⟨emis, by rw [← h, hpush], ?_, hepw⟩
        intro c hc
        obtain ⟨hc1, hc2⟩ := hemem c hc
        have hwinc : c.end_pos - c.start_pos ≤ cs := by
          rw [hc1, hc2]
          omega
        rcases lt_trichotomy s (-1) with hneg | hm1 | hpos
        · exfalso
          have hclen : cs < (text.length : Int) := hV2.resolve_left (by omega)
          have hnext : nextStart text cs ov s = -1 - ov := by
            unfold nextStart
            rw [compEnd_neg text cs ov hcs hov hclen s hV1 (by omega)]
          omega
        · exfalso
          have hclen : cs < (text.length : Int) := hV2.resolve_left (by omega)
          have hctnil := (compEnd_neg_one text cs ov hcs hov hclen).2
          rw [← hm1] at hctnil
          rw [hect hctnil] at hc
          exact absurd hc (List.not_mem_nil c)
        · have hsb : startBound cs ov s = s := if_neg (by omega)
          refine ⟨?_, hwinc⟩
          rw [hsb, hc1]
      · -- the loop continues
        rw [if_neg hbreak, hpush] at h
        rcases lt_trichotomy s (-1) with hneg | hm1 | hpos
        · -- s ≤ -2: the run falls into the negative trap and never returns
          exfalso
          have hclen : cs < (text.length : Int) := hV2.resolve_left (by omega)
          have hnext : nextStart text cs ov s = -1 - ov := by
            unfold nextStart
            rw [compEnd_neg text cs ov hcs hov hclen s hV1 (by omega)]
          rw [hnext, createChunksGo_neg_trap text cs ov hcs hov hclen f (-1 - ov)
            (le_refl _) (by omega) _ _] at h
          exact absurd h (by simp)
        · -- s = -1: no emission, jump to cs - 1 - ov
          subst hm1
          have hclen : cs < (text.length : Int) := hV2.resolve_left (by omega)
          obtain ⟨hcem1, hctm1⟩ := compEnd_neg_one text cs ov hcs hov hclen
          have hnext : nextStart text cs ov (-1) = cs - 1 - ov := by
            show compEnd text cs (-1) - ov = cs - 1 - ov
            rw [hcem1]
          have hcid : nextCid text cs (-1) cid = cid := by
            unfold nextCid
            rw [if_pos hctm1]
          rw [hect hctm1, List.append_nil, hcid, hnext] at h
          obtain ⟨tail, ht1, ht2, ht3⟩ := ih (cs - 1 - ov) cid acc out (by omega)
            (Or.inl (by omega)) h
          refine ⟨tail, ht1, ?_, ht3⟩
          intro c hc
          obtain ⟨hb, hw⟩ := ht2 c hc
          rw [show startBound cs ov (cs - 1 - ov) = cs - 1 - ov from if_neg (by omega)] at hb
          rw [show startBound cs ov (-1) = cs - 1 - ov from if_pos rfl]
          exact ⟨hb, hw⟩
        · -- 0 ≤ s
          have hs0 : (0 : Int) ≤ s := by omega
          have hsb : startBound cs ov s = s := if_neg (by omega)
          by_cases hmono : s ≤ nextStart text cs ov s
          · -- forward progress (or stall, which cannot return)
            obtain ⟨tail', ht1, ht2, ht3⟩ := ih (nextStart text cs ov s)
              (nextCid text cs s cid) (acc ++ emis) out (by omega) (Or.inl (by omega)) h
            have hbnd : ∀ b ∈ tail', nextStart text cs ov s ≤ b.start_pos := by
              intro b hb
              have := (ht2 b hb).1
              rwa [show startBound cs ov (nextStart text cs ov s) = nextStart text cs ov s
                from if_neg (by omega)] at this
            refine ⟨emis ++ tail', by rw [ht1, List.append_assoc], ?_, ?_⟩
            · intro c hc
              rcases List.mem_append.mp hc with hc | hc
              · obtain ⟨h1, h2⟩ := hemem c hc
                rw [hsb]
                refine ⟨by rw [h1], ?_⟩
                rw [h2, h1]
                omega
              · obtain ⟨_, hw⟩ := ht2 c hc
                have := hbnd c hc
                rw [hsb]
                exact ⟨by omega, hw⟩
            · rw [List.pairwise_append]
              refine ⟨hepw, ht3, ?_⟩
              intro a ha b hb
              obtain ⟨ha1, _⟩ := hemem a ha
              have := hbnd b hb
              rw [ha1]
              omega
          · -- the next start moved backwards: only the dip through -1 with a
            -- forward landing can still return; all other shapes loop forever
            push_neg at hmono
            have hlt : s + cs < (text.length : Int) := by
              by_contra hcon
              have hcee : compEnd text cs s = s + cs := by
                unfold compEnd
                rw [if_neg hcon]
              unfold nextStart at hmono
              rw [hcee] at hmono
              omega
            have hsnap : s < pyRfindSpace text s (s + cs) := by
              by_contra hcon
              have hcee : compEnd text cs s = s + cs := by
                unfold compEnd
                rw [if_pos hlt, if_neg hcon]
              unfold nextStart at hmono
              rw [hcee] at hmono
              omega
            have hce : compEnd text cs s = pyRfindSpace text s (s + cs) := by
              unfold compEnd
              rw [if_pos hlt, if_pos hsnap]
            have hns : nextStart text cs ov s = pyRfindSpace text s (s + cs) - ov := by
              unfold nextStart
              rw [hce]
            have hclen : cs < (text.length : Int) := by omega
            rcases lt_trichotomy (nextStart text cs ov s) (-1) with h2neg | h2m1 | h2pos
            · -- lands at ≤ -2: negative trap
              exfalso
              rw [createChunksGo_neg_trap text cs ov hcs hov hclen f _
                (by omega) (by omega) _ _] at h
              exact absurd h (by simp)
            · -- lands exactly at -1
              have hls : pyRfindSpace text s (s + cs) = ov - 1 := by omega
              obtain ⟨hcem1, hctm1⟩ := compEnd_neg_one text cs ov hcs hov hclen
              have hnextm1 : nextStart text cs ov (-1) = cs - 1 - ov := by
                show compEnd text cs (-1) - ov = cs - 1 - ov
                rw [hcem1]
              by_cases hu : cs - 1 - ov < s
              · -- the landing point returns to -1: a two-cycle, never returns
                exfalso
                have hnu : nextStart text cs ov (cs - 1 - ov) = -1 := by
                  show compEnd text cs (cs - 1 - ov) - ov = -1
                  rw [compEnd_again text cs s hs0 (by omega) hlt hsnap (cs - 1 - ov)
                    (by omega) (by omega) (by omega) (by omega), hls]
                  omega
                rw [h2m1, createChunksGo_cycle text cs ov f (-1) (cs - 1 - ov)
                  (by omega) (by omega) hnextm1 hnu _ _] at h
                exact absurd h (by simp)
              · -- the landing point cs - 1 - ov is at or beyond s
                push_neg at hu
                rw [h2m1] at h
                obtain ⟨tail', ht1, ht2, ht3⟩ := ih (-1) (nextCid text cs s cid)
                  (acc ++ emis) out (by omega) (Or.inr hclen) h
                have hbnd : ∀ b ∈ tail', cs - 1 - ov ≤ b.start_pos := by
                  intro b hb
                  have := (ht2 b hb).1
                  rwa [show startBound cs ov (-1) = cs - 1 - ov from if_pos rfl] at this
                refine ⟨emis ++ tail', by rw [ht1, List.append_assoc], ?_, ?_⟩
                · intro c hc
                  rcases List.mem_append.mp hc with hc | hc
                  · obtain ⟨h1, h2⟩ := hemem c hc
                    rw [hsb]
                    refine ⟨by rw [h1], ?_⟩
                    rw [h2, h1]
                    omega
                  · obtain ⟨_, hw⟩ := ht2 c hc
                    have := hbnd c hc
                    rw [hsb]
                    exact ⟨by omega, hw⟩
                · rw [List.pairwise_append]
                  refine ⟨hepw, ht3, ?_⟩
                  intro a ha b hb
                  obtain ⟨ha1, _⟩ := hemem a ha
                  have := hbnd b hb
                  rw [ha1]
                  omega
            · -- lands in [0, s): re-snaps to the same space, a fixed point
              exfalso
              have hfix : nextStart text cs ov (nextStart text cs ov s) =
                  nextStart text cs ov s := by
                show compEnd text cs (nextStart text cs ov s) - ov = nextStart text cs ov s
                rw [compEnd_again text cs s hs0 (by omega) hlt hsnap
                  (nextStart text cs ov s) (by omega) (le_of_lt hmono) (by omega) (by omega)]
                omega
              rw [createChunksGo_fixed text cs ov _ (by omega) hfix f _ _] at h
              exact absurd h (by simp)

/-! ## Claim C2 -/

/-- C2: whenever `create_chunks` returns (the loop exits before the fuel runs
out), the emitted chunks have non-decreasing `start_pos` and every chunk's
pre-trim window `end_pos - start_pos` is at most `chunk_size`, for all
`chunk_size > overlap ≥ 0` and non-empty text. -/
theorem C2_chunks_monotone_window (text : List Char) (cs ov : Int) (fuel : Nat)
    (out : List Chunk) (hcs : ov < cs) (hov : 0 ≤ ov) (hne : text ≠ [])
    (h : create_chunks fuel text cs ov = some out) :
    out.Pairwise (fun a b => a.start_pos ≤ b.start_pos) ∧
    ∀ c ∈ out, c.end_pos - c.start_pos ≤ cs := by
  obtain ⟨tail, h1, h2, h3⟩ := createChunksGo_mono text cs ov hcs hov fuel 0 0 [] out
    (by omega) (Or.inl (le_refl 0)) h
  rw [List.nil_append] at h1
  subst h1
  exact ⟨h3, fun c hc => (h2 c hc).2⟩

/-- C2 witness: the run on `"ab cd e"` with `chunk_size = 5`, `overlap = 3`
terminates with chunks at `start_pos` 0, 1, 2, 4, 6 (non-decreasing) and all
windows at most 5. -/
theorem C2_chunks_monotone_window_witness :
    ([⟨0, "ab".data, 0, 2, 2⟩, ⟨1, "b cd".data, 1, 5, 4⟩, ⟨2, "cd e".data, 2, 7, 4⟩,
      ⟨3, "d e".data, 4, 9, 3⟩, ⟨4, "e".data, 6, 11, 1⟩] : List Chunk).Pairwise
        (fun a b => a.start_pos ≤ b.start_pos) ∧
    ∀ c ∈ ([⟨0, "ab".data, 0, 2, 2⟩, ⟨1, "b cd".data, 1, 5, 4⟩, ⟨2, "cd e".data, 2, 7, 4⟩,
      ⟨3, "d e".data, 4, 9, 3⟩, ⟨4, "e".data, 6, 11, 1⟩] : List Chunk),
      c.end_pos - c.start_pos ≤ 5 :=
  C2_chunks_monotone_window "ab cd e".data 5 3 20
    [⟨0, "ab".data, 0, 2, 2⟩, ⟨1, "b cd".data, 1, 5, 4⟩, ⟨2, "cd e".data, 2, 7, 4⟩,
     ⟨3, "d e".data, 4, 9, 3⟩, ⟨4, "e".data, 6, 11, 1⟩]
    (by decide) (by decide) (by decide) (by decide)

end Bajaj
